import Mathlib

/-!
Verification of the tastypie-extensions REST resource layer.

The definitions below are a shallow embedding of the Python sources under
src/api/: the paginator (paginator.py), the authorization helpers and the
dehydration / sorting / field-filtering pipeline of resources/generic.py,
the form-level limit policy (forms.py), the ISO date-time field (fields.py)
and the HTML sanitizer (utils.py). Stateful Python code is rendered as
explicit data flow; fallible code returns Except; error payloads are carried
structurally (error kind plus the offending name) instead of formatted
message strings.
-/

namespace TastypieExt

/-- Structured error kinds raised through raise_error / ValidationError in the
Python source. Each constructor carries the data the formatted message
interpolates. -/
inductive ApiErr where
  | invalidField (name : String)
  | badAttribute (name : String)
  | cannotOrder (name : String)
  | limitExceeded
  | invalidFormat
  | requiredField
  | malformedTimezone
  | unauthorizedEdit
  deriving DecidableEq, Repr

/-- Python s.startswith(pre), computed on the character list. -/
def strStarts (s pre : String) : Bool :=
  pre.data.isPrefixOf s.data

/-- Python s.endswith(suf), computed on the character list. -/
def strEnds (s suf : String) : Bool :=
  suf.data.isSuffixOf s.data

/-- Python s[n:], computed on the character list. -/
def strDrop (s : String) (n : Nat) : String :=
  ⟨s.data.drop n⟩

/-- Python s[:-n], computed on the character list. -/
def strDropLast (s : String) (n : Nat) : String :=
  ⟨(s.data.reverse.drop n).reverse⟩

/-! ## Paginator (src/api/paginator.py, BasePaginator) -/

/-- BasePaginator.get_slice: returns the empty list when the limit is 0,
otherwise the Python slice objects[offset : offset + limit]. -/
def getSlice (objects : List α) (limit offset : Nat) : List α :=
  if limit = 0 then []
  else (objects.drop offset).take limit

/-- BasePaginator.get_count: returns 0 when the stored limit is 0, otherwise
the count of the underlying collection (passed in as totalCount). -/
def getCount (limit : Nat) (totalCount : Nat) : Nat :=
  if limit = 0 then 0
  else totalCount

/-! ## Authorization helpers (src/api/resources/generic.py)

do_if_authorized performs a TrackableObject action (submit / edit / remove)
only when is_authorized succeeds, and otherwise falls through returning
Python None. We model a domain object abstractly, an action as a function on
it, and record the actions actually performed as an effect list. -/

/-- A domain action table: how each named TrackableObject action transforms
the object. -/
structure ActionTable (Obj : Type) where
  apply : String → Obj → Obj

/-- BaseResource.do_if_authorized: returns (result, performed actions).
When the requester is not authorized the body is skipped, so the result is
none (Python None) and no action runs. -/
def doIfAuthorized (tbl : ActionTable Obj) (authorized : Bool) (action : String)
    (o : Obj) : Option Obj × List String :=
  if authorized then (some (tbl.apply action o), [action])
  else (none, [])

/-- BaseModelResource.obj_delete: looks up the object and returns
do_if_authorized with the remove action directly — an unauthorized delete
therefore returns None with no error raised. -/
def objDelete (tbl : ActionTable Obj) (authorized : Bool) (o : Obj) :
    Option Obj × List String :=
  doIfAuthorized tbl authorized "remove" o

/-- BaseModelResource.obj_update (the authorization tail): sets bundle.obj to
do_if_authorized with the edit action and raises HttpUnauthorized when the
result is falsy. Objects are assumed truthy, so the error fires exactly on the
unauthorized path. -/
def objUpdate (tbl : ActionTable Obj) (authorized : Bool) (o : Obj) :
    Except ApiErr (Obj × List String) :=
  match doIfAuthorized tbl authorized "edit" o with
  | (some o2, acts) => .ok (o2, acts)
  | (none, _) => .error .unauthorizedEdit

/-! ## List-form limit policy (src/api/forms.py, BaseModelResourceListForm.clean
and src/api/resources/generic.py, BaseModelResource.is_valid) -/

/-- A run of decimal digits read as a Nat; none when empty or a non-digit
appears. Helper for pyInt. -/
def digitsToNat : List Char → Option Nat
  | [] => none
  | cs =>
    if cs.all Char.isDigit then
      some (cs.foldl (fun acc c => acc * 10 + (c.toNat - 48)) 0)
    else none

/-- Python int(str) on an optional sign followed by digits; anything else
raises (→ none). -/
def pyInt (s : String) : Option Int :=
  match s.data with
  | [] => none
  | c :: cs =>
    if c = '-' then (digitsToNat cs).map (fun n => -(n : Int))
    else (digitsToNat (c :: cs)).map Int.ofNat

/-- BaseModelResourceListForm.clean: reads the raw limit parameter with
int(); a parse failure (or absent limit) silently passes. A parsed limit
strictly above the ceiling fails with the limit-exceeded ValidationError
unless ignore_limit is set on the form. -/
def listFormClean (limitRaw : Option String) (ignoreLimit : Bool)
    (maxLimit : Int) : Except ApiErr Unit :=
  match limitRaw.bind pyInt with
  | none => .ok ()
  | some l =>
    if l > maxLimit && !ignoreLimit then .error .limitExceeded
    else .ok ()

/-- BaseModelResource.is_valid passes ignore_limit = True to the list form
exactly when the resource is locally_accessed (a trusted, internally
originated call); external requests leave it at the form default False. -/
def isValidLimitCheck (locallyAccessed : Bool) (limitRaw : Option String)
    (maxLimit : Int) : Except ApiErr Unit :=
  listFormClean limitRaw locallyAccessed maxLimit

/-! ## Object lookup decision procedure
(src/api/resources/generic.py, BaseModelResource._lookup_obj)

The visibility state of a TrackableObject (live / hidden / removed) and its
has_view_perm check live in the external trackable_object package; we model
the state as an enum and has_view_perm as a per-requester boolean on the
object. Requesters are modelled by Bool (owner vs non-owner suffices for the
claims). The fetch step (_get_obj_from_ids) can raise Http404 or Http410
before any object is produced. -/

inductive Visibility where
  | live
  | hidden
  | removed
  deriving DecidableEq, Repr

/-- A trackable object surfaced to _lookup_obj: its visibility status and the
has_view_perm predicate over requesters (requesters modelled by Bool). -/
structure TrackObj where
  status : Visibility
  viewPerm : Bool → Bool

/-- Outcome of the fetch step _get_obj_from_ids. -/
inductive FetchResult where
  | found (o : TrackObj)
  | notFound404
  | gone410

/-- The response produced by _lookup_obj: either the object is returned, or a
specific error response is raised. Constructors follow the
response_message / response_class pairs in the source. -/
inductive LookupResult where
  | allow (o : TrackObj)
  | notFound
  | forbiddenHidden
  | gone
  | goneAlready
  | forbidden

/-- BaseModelResource._lookup_obj, branch for branch: Http404 from the fetch
(or a falsy object) yields NotFound; Http410 from the fetch yields Gone with
the already-removed message; otherwise has_view_perm first (allow), then
is_hidden (Forbidden with the hidden message), then is_removed (Gone), then
the generic Forbidden. -/
def lookupObj (fetched : FetchResult) (u : Bool) : LookupResult :=
  match fetched with
  | .notFound404 => .notFound
  | .gone410 => .goneAlready
  | .found o =>
    if o.viewPerm u then .allow o
    else if o.status = .hidden then .forbiddenHidden
    else if o.status = .removed then .gone
    else .forbidden

/-! ## Field projection (src/api/resources/generic.py,
BaseModelResource.filter_fields) -/

/-- The kind of a tastypie field on a resource, as far as filter_fields and
full_dehydrate discriminate: BaseForeignKey, BaseRelatedField, or any other
(scalar) field. -/
inductive FKind where
  | foreignKey
  | related
  | scalar
  deriving DecidableEq, Repr

/-- The field tables filter_fields consults: self.fields (instance fields),
self.declared_fields, and Meta.fields, each field tagged with its kind
(Meta.fields entries are plain names). -/
structure ResFields where
  fields : List (String × FKind)
  declaredFields : List (String × FKind)
  metaFields : List String

/-- Fields that must show up no matter what (the permanent_fields local). -/
def permanentFields : List String := ["resource_uri"]

/-- The derived id field names: for every BaseForeignKey among
declared_fields and fields, the name with an _id ending appended. -/
def idFields (r : ResFields) : List String :=
  ((r.declaredFields ++ r.fields).filter (fun f => f.2 = .foreignKey)).map
    (fun f => f.1 ++ "_id")

/-- The initial_fields local: fields keys, declared_fields keys, Meta.fields
and the derived id fields, in source order. -/
def initialFields (r : ResFields) : List String :=
  r.fields.map Prod.fst ++ r.declaredFields.map Prod.fst ++ r.metaFields ++ idFields r

/-- The valid_fields local: initial fields plus the permanent fields. -/
def validFields (r : ResFields) : List String :=
  initialFields r ++ permanentFields

/-- BaseModelResource.filter_fields: with an empty requested list nothing
happens (ignore_fields stays empty); otherwise the first requested name
outside valid_fields raises the not-a-valid-field error, and when all names
are valid, ignore_fields collects every initial field neither requested nor
permanent. The returned list is the resulting ignore_fields. -/
def filterFields (r : ResFields) (requested : List String) :
    Except ApiErr (List String) :=
  if requested.isEmpty then .ok []
  else
    match requested.find? (fun f => !(validFields r).contains f) with
    | some f => .error (.invalidField f)
    | none =>
      .ok ((initialFields r).filter
        (fun f => !requested.contains f && !permanentFields.contains f))

/-! ## Full dehydration (src/api/resources/generic.py,
BaseModelResource.full_dehydrate)

The loop walks self.fields in order. A field in ignore_fields is skipped,
except that an ignored BaseForeignKey whose derived _id name is not also
ignored is replaced by an IntegerField over the <name>_id model attribute.
Each produced value may then be overridden by a dehydrate_<field_name> hook
(looked up under the substituted name). We model the domain object by the
accessors the loop uses. -/

/-- A dehydrated value: the bare integer id read by the substituted
IntegerField (nullable), a nested related-resource representation produced
by a relationship field dehydrate, or a scalar value. -/
inductive DVal where
  | intOpt (n : Option Int)
  | nestedRep (rep : List (String × String))
  | scalar (s : String)
  deriving DecidableEq, Repr

/-- The domain object as full_dehydrate reads it: rawId n models the model
attribute n_id behind a foreign key n (what IntegerField(n ++ id-ending)
dehydrates), relatedRep n the representation that the relationship field n
dehydrates to (reduced or full per its declaration), and scalarVal n the
plain attribute. -/
structure DehydObj where
  rawId : String → Option Int
  relatedRep : String → List (String × String)
  scalarVal : String → String

/-- The kind-specific field_object.dehydrate(bundle) call for a field that is
not being substituted. -/
def fieldDehydrate (k : FKind) (name : String) (o : DehydObj) : DVal :=
  match k with
  | .foreignKey => .nestedRep (o.relatedRep name)
  | .related => .nestedRep (o.relatedRep name)
  | .scalar => .scalar (o.scalarVal name)

/-- The per-field dehydrate_<field_name> hook table (getattr on the
resource): none when the resource defines no hook for that name. -/
def applyHook (hooks : String → Option (DehydObj → DVal)) (name : String)
    (o : DehydObj) (v : DVal) : DVal :=
  match hooks name with
  | some h => h o
  | none => v

/-- BaseModelResource.full_dehydrate, per-field loop over self.fields in
order, emitting bundle.data entries in iteration order. Ignored non-FK
fields are dropped; an ignored BaseForeignKey with a non-ignored derived _id
name is emitted under the _id name via the IntegerField conversion; all
other fields are emitted under their own name via their kind dehydrate —
each value subject to the dehydrate_<field_name> hook under the (possibly
substituted) name. -/
def fullDehydrate (hooks : String → Option (DehydObj → DVal))
    (ignore : List String) (o : DehydObj) :
    List (String × FKind) → List (String × DVal)
  | [] => []
  | f :: rest =>
    let tail := fullDehydrate hooks ignore o rest
    if f.1 ∈ ignore then
      if f.2 = .foreignKey then
        let idf := f.1 ++ "_id"
        if idf ∈ ignore then tail
        else (idf, applyHook hooks idf o (.intOpt (o.rawId f.1))) :: tail
      else tail
    else (f.1, applyHook hooks f.1 o (fieldDehydrate f.2 f.1 o)) :: tail

/-- Association-list lookup over the emitted bundle.data mapping. -/
def dataGet (data : List (String × α)) (k : String) : Option α :=
  (data.find? (fun p => p.1 = k)).map Prod.snd

/-! ## URI absolutization (src/api/resources/generic.py,
BaseResource._format_uri and _format_api_uri) -/

/-- Python lstrip of slashes on the value: drop every leading slash. -/
def lstripSlash (s : String) : String :=
  ⟨s.data.dropWhile (fun c => c = '/')⟩

/-- In-place dict update for an existing key (object_data[key] = v updates
the binding; _format_uri only touches keys whose current value is truthy, so
the key already exists). -/
def dataSet (data : List (String × String)) (k v : String) :
    List (String × String) :=
  data.map (fun p => if p.1 = k then (p.1, v) else p)

/-- BaseResource._format_uri: for each key in keys whose current value is
truthy (a non-empty string), replace it by base_url + "/" + value with the
leading slashes of the value stripped. -/
def formatUri (data : List (String × String)) (keys : List String)
    (baseUrl : String) : List (String × String) :=
  keys.foldl
    (fun d k =>
      match dataGet d k with
      | some v => if v ≠ "" then dataSet d k (baseUrl ++ "/" ++ lstripSlash v) else d
      | none => d)
    data

/-- Meta.api_uri_keys on BaseResource. -/
def apiUriKeys : List String := ["resource_uri", "next", "previous"]

/-- The keys _format_api_uri operates on: api_uri_keys extended with every
key of the mapping that ends in _uri and is not already listed. -/
def uriKeysFor (data : List (String × String)) : List String :=
  apiUriKeys ++
    (data.map Prod.fst).filter
      (fun x => strEnds x "_uri" && !apiUriKeys.contains x)

/-- BaseResource._format_api_uri: _format_uri over the extended key list with
settings.BASE_API_URL as the base. -/
def formatApiUri (data : List (String × String)) (baseUrl : String) :
    List (String × String) :=
  formatUri data (uriKeysFor data) baseUrl

/-- An absolute URI in the sense of the specification sentence ("unless the
value is already absolute"): one that already carries an http or https
scheme. Stated from the spec for comparison with the code; the code itself
performs no such test. -/
def isAbsoluteUri (s : String) : Bool :=
  strStarts s "http://" || strStarts s "https://"

/-! ## Sorting (src/api/resources/generic.py, BaseModelResource.apply_sorting)

apply_sorting reads the cleaned options mapping: when the order_by key is
absent it returns the object list untouched; when present with a falsy value
(None or an empty list) the ordering defaults to the single key "-id"; when
present with strings, each string is cleaned and resolved through the
resource attributes, Meta.maps_to and the model fields. Query rows are
modelled as an attribute valuation, order_by as a stable lexicographic sort,
and extra(select=...) as adding computed attributes via an expression
evaluator supplied as a parameter. -/

/-- A row of the queryset: the attribute valuation the ORM sorts on ("id"
holds the identifier). -/
structure SObj where
  attrs : String → Int

/-- The tables apply_sorting consults on the resource: its attributes (with
their field kinds), the Meta.maps_to dictionary, and the set of attribute
names present on the django model. -/
structure SortRes where
  attributes : List (String × FKind)
  mapsTo : List (String × String)
  modelFields : List String

/-- Python s.lstrip(quotes).rstrip(quotes) for the two quote characters. -/
def stripQuotes (s : String) : String :=
  let isQuote := fun c => c = Char.ofNat 39 || c = Char.ofNat 34
  ⟨((s.data.dropWhile isQuote).reverse.dropWhile isQuote).reverse⟩

/-- The simple-mapping test re.match applies to a maps_to value: the whole
string is a nonempty run of lowercase letters, digits and underscores. -/
def isSimpleName (s : String) : Bool :=
  !s.isEmpty && s.data.all (fun c => c.isLower || c.isDigit || c = '_')

/-- The per-string loop of apply_sorting: strip quotes, peel a leading minus
sign, peel a trailing _id, check the attribute exists on the resource (and
is a relationship field when _id was peeled), then resolve through maps_to
(simple mapping, or computed expression added to select) or the model
fields. Returns the final ordering list and the select dictionary, or the
error the first failing string raises. -/
def processOrderStrings (r : SortRes) :
    List String → Except ApiErr (List String × List (String × String))
  | [] => .ok ([], [])
  | s :: rest =>
    let pos0 := stripQuotes s
    let neg := strStarts pos0 "-"
    let pos1 := if neg then strDrop pos0 1 else pos0
    let sign := if neg then "-" else ""
    let idEnding := strEnds pos1 "_id"
    let pos2 := if idEnding then strDropLast pos1 3 else pos1
    match r.attributes.find? (fun p => p.1 = pos2) with
    | none => .error (.badAttribute s)
    | some att =>
      if idEnding && !(att.2 = .foreignKey || att.2 = .related) then
        .error (.badAttribute s)
      else
        match r.mapsTo.find? (fun p => p.1 = pos2) with
        | some m =>
          if isSimpleName m.2 then
            (processOrderStrings r rest).map
              (fun out => ((sign ++ m.2) :: out.1, out.2))
          else
            (processOrderStrings r rest).map
              (fun out => ((sign ++ pos2 ++ "_for_api_ordering") :: out.1,
                           (pos2 ++ "_for_api_ordering", m.2) :: out.2))
        | none =>
          if r.modelFields.contains pos2 then
            (processOrderStrings r rest).map
              (fun out => ((sign ++ pos2) :: out.1, out.2))
          else .error (.cannotOrder s)

/-- The row comparison order_by induces for an ordering key list: keys are
compared left to right, a key starting with a minus sign compares its
attribute descending, ties fall through to the next key. -/
def keyLe (keys : List String) (a b : SObj) : Bool :=
  match keys with
  | [] => true
  | k :: rest =>
    let desc := strStarts k "-"
    let kk := if desc then strDrop k 1 else k
    if a.attrs kk = b.attrs kk then keyLe rest a b
    else if desc then b.attrs kk < a.attrs kk
    else a.attrs kk < b.attrs kk

/-- Insertion into a sorted list (helper for the order_by model). -/
def insertBy (le : SObj → SObj → Bool) (x : SObj) : List SObj → List SObj
  | [] => [x]
  | y :: ys => if le x y then x :: y :: ys else y :: insertBy le x ys

/-- The queryset order_by(*keys): a stable sort of the rows by the
lexicographic key comparison. -/
def orderByKeys (keys : List String) (objs : List SObj) : List SObj :=
  objs.foldr (insertBy (keyLe keys)) []

/-- extra(select=...): each selected name becomes a computed attribute on the
row, evaluated from its expression by the supplied evaluator. -/
def withSelect (evalExpr : String → SObj → Int)
    (sel : List (String × String)) (o : SObj) : SObj :=
  { attrs := fun k =>
      match sel.find? (fun p => p.1 = k) with
      | some p => evalExpr p.2 o
      | none => o.attrs k }

/-- BaseModelResource.apply_sorting over the cleaned options mapping.
orderByEntry is none when the options dictionary has no order_by key (the
early return leaves the list untouched); some none / some [] model a present
key with a falsy value (the "-id" default); otherwise the strings are
processed and the sort applied, with extra(select=...) first when the select
dictionary is nonempty. -/
def applySorting (r : SortRes) (evalExpr : String → SObj → Int)
    (orderByEntry : Option (Option (List String))) (objs : List SObj) :
    Except ApiErr (List SObj) :=
  match orderByEntry with
  | none => .ok objs
  | some val =>
    match val.getD [] with
    | [] => .ok (orderByKeys ["-id"] objs)
    | s :: ss =>
      match processOrderStrings r (s :: ss) with
      | .error e => .error e
      | .ok (ordering, sel) =>
        if sel.isEmpty then .ok (orderByKeys ordering objs)
        else .ok (orderByKeys ordering (objs.map (withSelect evalExpr sel)))

/-- Adjacent rows are descending by identifier (the determinism property the
specification attributes to the default ordering). -/
def descById : List SObj → Bool
  | [] => true
  | [_] => true
  | a :: b :: rest => decide (b.attrs "id" ≤ a.attrs "id") && descById (b :: rest)

/-- Adjacent rows all satisfy a comparison (helper predicate for sortedness
of the order_by model). -/
def isChain (le : SObj → SObj → Bool) : List SObj → Bool
  | [] => true
  | [_] => true
  | a :: b :: rest => le a b && isChain le (b :: rest)

/-! ## ISO date-time field (src/api/fields.py, ISODateTimeField)

The field parses an ISO-8601 date-time with a UTC offset, resolves the
offset to the first enumerated named time zone whose own offset at that wall
instant matches it exactly (the difference of the localized and the given
datetime is zero), and returns the zone name together with the UTC
normalized instant. The enumerated zone list
(timezones.zones.AMERICA_FIRST_TIMEZONE_CHOICES backed by pytz) is external,
so clean is parameterized by a zone table: each zone is its name and its
UTC offset in minutes as a function of the naive local instant. Instants are
seconds since the civil epoch 1970-01-01. -/

/-- Days from civil date (proleptic Gregorian), Hinnant day-count algorithm
with truncating integer division. -/
def daysFromCivil (y m d : Int) : Int :=
  let y2 := if m ≤ 2 then y - 1 else y
  let era := (if y2 ≥ 0 then y2 else y2 - 399) / 400
  let yoe := y2 - era * 400
  let mp := (m + 9) % 12
  let doy := (153 * mp + 2) / 5 + d - 1
  let doe := yoe * 365 + yoe / 4 - yoe / 100 + doy
  era * 146097 + doe - 719468

/-- Seconds since the epoch of a civil date and time of day. -/
def secondsOfCivil (y mo d h mi s : Int) : Int :=
  daysFromCivil y mo d * 86400 + h * 3600 + mi * 60 + s

/-- Numeric value of a decimal digit character. -/
def digitVal (c : Char) : Int :=
  Int.ofNat c.toNat - 48

/-- Parser for the ISO strings the field accepts
(YYYY-MM-DDTHH:MM:SS+hh:mm or with a minus offset): returns the naive local
instant in epoch seconds and the UTC offset in minutes. Malformed input
yields none (the dateutil ValueError path). Field ranges are checked the way
a datetime constructor would (months 1..12, days 1..31, time components in
range); a zero offset behaves as UTC (the tzlocal special case in clean sets
offset 0 there as well). -/
def parseIso (str : String) : Option (Int × Int) :=
  match str.data with
  | [y1, y2, y3, y4, dash1, m1, m2, dash2, d1, d2, tSep,
     h1, h2, colon1, n1, n2, colon2, s1, s2,
     sg, o1, o2, colon3, p1, p2] =>
    if [y1, y2, y3, y4, m1, m2, d1, d2, h1, h2, n1, n2, s1, s2,
        o1, o2, p1, p2].all Char.isDigit
       && dash1 = '-' && dash2 = '-' && tSep = 'T'
       && colon1 = ':' && colon2 = ':' && colon3 = ':'
       && (sg = '+' || sg = '-') then
      let y := digitVal y1 * 1000 + digitVal y2 * 100 + digitVal y3 * 10 + digitVal y4
      let mo := digitVal m1 * 10 + digitVal m2
      let d := digitVal d1 * 10 + digitVal d2
      let h := digitVal h1 * 10 + digitVal h2
      let mi := digitVal n1 * 10 + digitVal n2
      let s := digitVal s1 * 10 + digitVal s2
      let oh := digitVal o1 * 10 + digitVal o2
      let om := digitVal p1 * 10 + digitVal p2
      if 1 ≤ mo && mo ≤ 12 && 1 ≤ d && d ≤ 31 && h ≤ 23 && mi ≤ 59 && s ≤ 59
         && oh ≤ 23 && om ≤ 59 then
        let offMin := (oh * 60 + om) * (if sg = '-' then -1 else 1)
        some (secondsOfCivil y mo d h mi s, offMin)
      else none
    else none
  | _ => none

/-- A named zone of the enumerated table: its name and its UTC offset in
minutes at a given naive local instant (daylight saving folded into the
function). -/
structure NamedZone where
  name : String
  offsetAt : Int → Int

/-- ISODateTimeField.get_timezone_string: walk the enumerated zones in order
and return the first whose offset at the wall instant equals the supplied
offset exactly (the localized-minus-given difference is zero); none when no
zone matches. -/
def getTimezoneString (zones : List NamedZone) (localSecs offMin : Int) :
    Option String :=
  (zones.find? (fun z => z.offsetAt localSecs = offMin)).map NamedZone.name

/-- The cleaned value the field returns: the resolved zone name and the
UTC normalized naive instant. -/
structure CleanedDT where
  timezone : String
  utcTime : Int
  deriving DecidableEq, Repr

/-- ISODateTimeField.clean: an empty value is required-checked; otherwise the
string is parsed (a parse failure raises the invalid-format error), the
offset resolved against the enumerated zones (no match raises the
malformed-timezone error), and the UTC instant obtained by subtracting the
offset from the local instant (astimezone to UTC, tzinfo dropped). -/
def isoClean (zones : List NamedZone) (required : Bool) (value : String) :
    Except ApiErr (Option CleanedDT) :=
  if value = "" then
    if required then .error .requiredField else .ok none
  else
    match parseIso value with
    | none => .error .invalidFormat
    | some lo =>
      match getTimezoneString zones lo.1 lo.2 with
      | none => .error .malformedTimezone
      | some tzName => .ok (some ⟨tzName, lo.1 - lo.2 * 60⟩)

/-! ## HTML sanitizer (src/api/utils.py, clean_html)

clean_html parses the fragment, extracts (subtree and all) every tag whose
name is not in the acceptable elements, deletes unacceptable attributes from
the kept tags, serializes, and repeats while a pass extracted a tag. The
parse / serialize round trip through BeautifulSoup is external; we work
directly on the parsed fragment (a forest of text and element nodes), on
which reparsing the serialization is the identity, and give the while-True
loop fuel bounded by the node count (each removing pass drops at least one
node, and the fixpoint argument below shows any fuel of at least one
iteration yields the same result). -/

/-- A parsed HTML fragment node: character data, or an element with its
attribute mapping and children. -/
inductive HNode where
  | text (s : String)
  | elem (name : String) (attrs : List (String × String)) (children : List HNode)

/-- One pass of the clean_html loop body over a forest: a tag with an
unacceptable name is extracted together with its subtree (setting the
removed flag); a kept tag has its unacceptable attributes deleted and its
children processed. Returns the rewritten forest and whether any tag was
extracted. -/
def stripPass (okTags okAttrs : List String) : List HNode → List HNode × Bool
  | [] => ([], false)
  | .text s :: rest =>
    let r := stripPass okTags okAttrs rest
    (.text s :: r.1, r.2)
  | .elem n attrs cs :: rest =>
    let r := stripPass okTags okAttrs rest
    if n ∈ okTags then
      let c := stripPass okTags okAttrs cs
      (.elem n (attrs.filter (fun a => okAttrs.contains a.1)) c.1 :: r.1,
       c.2 || r.2)
    else (r.1, true)

/-- The while-True loop of clean_html with explicit fuel: run a pass, and
when it extracted a tag reparse and run again, otherwise return the pass
output. -/
def cleanLoop (okTags okAttrs : List String) : Nat → List HNode → List HNode
  | 0, frag => frag
  | fuel + 1, frag =>
    let r := stripPass okTags okAttrs frag
    if r.2 then cleanLoop okTags okAttrs fuel r.1 else r.1

/-- clean_html over a parsed fragment: the loop with enough fuel (one more
than the node count bounds the number of removing passes; the fixpoint
lemmas below show the exact amount is immaterial once positive). -/
def cleanHtml (okTags okAttrs : List String) (frag : List HNode) :
    List HNode :=
  cleanLoop okTags okAttrs (frag.length + 1) frag

/-- The default acceptable_elements list of clean_html. -/
def acceptableElements : List String :=
  ["p", "h2", "h3", "h4", "b", "strong", "i", "u", "ul", "ol",
   "span", "li", "a", "em"]

/-- The default acceptable_attributes list of clean_html. -/
def acceptableAttributes : List String :=
  ["alt", "width", "href", "height", "title", "value", "style"]

/-- A fragment on which a pass has nothing to do: every element name is
acceptable and every attribute acceptable, recursively. -/
def sanitizedFrag (okTags okAttrs : List String) : List HNode → Bool
  | [] => true
  | .text _ :: rest => sanitizedFrag okTags okAttrs rest
  | .elem n attrs cs :: rest =>
    okTags.contains n && attrs.all (fun a => okAttrs.contains a.1)
      && sanitizedFrag okTags okAttrs cs && sanitizedFrag okTags okAttrs rest

/-- Modelled from the spec: a concrete instance of the enumerated named time
zone table (timezones.zones.AMERICA_FIRST_TIMEZONE_CHOICES backed by pytz,
which is not part of this repository) — the US/Eastern entry with its UTC
offset in minutes around the 2023-06-01 instant (daylight saving in
effect). -/
def zoneEastern : NamedZone := ⟨"US/Eastern", fun _ => -240⟩

/-- Modelled from the spec: the US/Central entry of the enumerated zone
table; its offset at the 2023-06-01 instant is exactly -5:00. -/
def zoneCentral : NamedZone := ⟨"US/Central", fun _ => -300⟩

/-- Modelled from the spec: the US/Mountain entry of the enumerated zone
table at the same instant. -/
def zoneMountain : NamedZone := ⟨"US/Mountain", fun _ => -360⟩

/-- Modelled from the spec: the US/Pacific entry of the enumerated zone
table at the same instant. -/
def zonePacific : NamedZone := ⟨"US/Pacific", fun _ => -420⟩

/-- Modelled from the spec: the fixed enumerated set of named time zones the
field resolves offsets against, America-first ordered. -/
def exampleZones : List NamedZone :=
  [zoneEastern, zoneCentral, zoneMountain, zonePacific]

/-!
# Theorems

One theorem per claim (with a witness when the theorem carries hypotheses),
preceded by the shared helper lemmas.
-/

/-- C10: with an effective page limit of 0, the paginator returns the empty
slice and a total count of 0 — not the full collection. -/
theorem c10_zero_limit_yields_empty_page (α : Type) (objects : List α)
    (offset totalCount : Nat) :
    getSlice objects 0 offset = [] ∧ getCount 0 totalCount = 0 :=
  ⟨rfl, rfl⟩

/-- C9: an unauthorized DELETE performs no domain action and returns None
without signaling an error, while an unauthorized update raises the
Unauthorized error. -/
theorem c9_delete_silent_update_raises (Obj : Type) (tbl : ActionTable Obj)
    (authorized : Bool) (o : Obj) (h : authorized = false) :
    objDelete tbl authorized o = (none, []) ∧
    objUpdate tbl authorized o = .error .unauthorizedEdit := by
  subst h
  exact ⟨rfl, rfl⟩

/-- Witness for C9 at a concrete unauthorized request. -/
theorem c9_delete_silent_update_raises_witness :
    objDelete ⟨fun _ o => o⟩ false () = (none, []) ∧
    objUpdate ⟨fun _ o => o⟩ false () = .error .unauthorizedEdit :=
  c9_delete_silent_update_raises Unit ⟨fun _ o => o⟩ false () rfl

/-- C6: a requested page-size limit strictly above the configured ceiling
fails with the limit-exceeded error on an externally originated request and
succeeds on an internally originated (locally accessed, trusted) request
with the same parameters. -/
theorem c6_limit_policy (s : String) (l maxLimit : Int)
    (hparse : pyInt s = some l) (hgt : l > maxLimit) :
    isValidLimitCheck false (some s) maxLimit = .error .limitExceeded ∧
    isValidLimitCheck true (some s) maxLimit = .ok () := by
  unfold isValidLimitCheck listFormClean
  rw [show Option.bind (some s) pyInt = pyInt s from rfl, hparse]
  constructor
  · simp [hgt]
  · simp

/-- Witness for C6: limit 300 against a ceiling of 200. -/
theorem c6_limit_policy_witness :
    isValidLimitCheck false (some "300") 200 = .error .limitExceeded ∧
    isValidLimitCheck true (some "300") 200 = .ok () :=
  c6_limit_policy "300" 300 200 (by decide) (by decide)

/-- C2: the read/detail lookup decision procedure — a removed object yields
Gone for every requester (given that view permission is never granted on a
removed object, per the spec state machine; has_view_perm itself lives in
the external trackable_object package), a hidden object yields the
hidden-specific Forbidden to a requester without view permission and is
allowed with view permission, a missing object yields NotFound, and any
other unpermitted access yields the generic Forbidden. -/
theorem c2_lookup_decision_procedure (o : TrackObj)
    (hrm : o.status = .removed → ∀ u, o.viewPerm u = false) :
    (o.status = .removed → ∀ u, lookupObj (.found o) u = .gone) ∧
    (∀ u, o.status = .hidden → o.viewPerm u = false →
      lookupObj (.found o) u = .forbiddenHidden) ∧
    (∀ u, o.viewPerm u = true → lookupObj (.found o) u = .allow o) ∧
    (∀ u, lookupObj .notFound404 u = .notFound) ∧
    (∀ u, o.status = .live → o.viewPerm u = false →
      lookupObj (.found o) u = .forbidden) := by
  refine ⟨?_, ?_, ?_, ?_, ?_⟩
  · intro hst u
    simp [lookupObj, hrm hst u, hst]
  · intro u hst hperm
    simp [lookupObj, hperm, hst]
  · intro u hperm
    simp [lookupObj, hperm]
  · intro u
    rfl
  · intro u hst hperm
    simp [lookupObj, hperm, hst]

/-- Witness for C2: a removed object denying view permission to everyone is
Gone for both requesters, and a missing object is NotFound. -/
theorem c2_lookup_decision_procedure_witness :
    lookupObj (.found ⟨.removed, fun _ => false⟩) true = .gone ∧
    lookupObj (.found ⟨.removed, fun _ => false⟩) false = .gone ∧
    lookupObj .notFound404 true = .notFound := by
  have h := c2_lookup_decision_procedure ⟨.removed, fun _ => false⟩
    (fun _ _ => rfl)
  exact ⟨h.1 rfl true, h.1 rfl false, h.2.2.2.1 true⟩

/-- Helper: find? returns the unique element satisfying the predicate. -/
theorem find_of_unique {α : Type} {p : α → Bool} {l : List α} {a : α}
    (ha : a ∈ l) (hpa : p a = true)
    (hother : ∀ b ∈ l, b ≠ a → p b = false) :
    l.find? p = some a := by
  induction l with
  | nil => cases ha
  | cons x xs ih =>
    by_cases hx : x = a
    · subst hx
      simp [List.find?, hpa]
    · have hpx : p x = false := hother x (List.mem_cons_self x xs) hx
      have ha2 : a ∈ xs := by
        rcases List.mem_cons.mp ha with h | h
        · exact absurd h.symm hx
        · exact h
      simp only [List.find?, hpx]
      exact ih ha2 (fun b hb hne => hother b (List.mem_cons_of_mem x hb) hne)

/-- C3: for a non-empty requested field list, a requested name outside the
valid-field closure (initial fields plus permanent fields) makes
filter_fields fail with the invalid-field error naming exactly that field
(and no ignore list is produced); when every requested name is valid, the
produced ignore list marks excluded exactly the fields that are neither
requested nor permanent. -/
theorem c3_filter_fields_validation (r : ResFields) (req : List String)
    (hne : req ≠ []) :
    (∀ bad, bad ∈ req → bad ∉ validFields r →
      (∀ f ∈ req, f ≠ bad → f ∈ validFields r) →
      filterFields r req = .error (.invalidField bad)) ∧
    ((∀ f ∈ req, f ∈ validFields r) →
      ∃ ign, filterFields r req = .ok ign ∧
        ∀ g, g ∈ ign ↔ (g ∈ initialFields r ∧ g ∉ req ∧ g ∉ permanentFields)) := by
  have hempty : req.isEmpty = false := by
    cases req with
    | nil => exact absurd rfl hne
    | cons a l => rfl
  constructor
  · intro bad hmem hbad hother
    have hfind : req.find? (fun f => !(validFields r).contains f) = some bad := by
      apply find_of_unique hmem
      · simp [hbad]
      · intro b hb hneb
        simp [hother b hb hneb]
    unfold filterFields
    rw [hempty]
    simp only [Bool.false_eq_true, if_false, hfind]
  · intro hall
    have hfind : req.find? (fun f => !(validFields r).contains f) = none := by
      apply List.find?_eq_none.mpr
      intro x hx
      simp [hall x hx]
    refine ⟨(initialFields r).filter
      (fun f => !req.contains f && !permanentFields.contains f), ?_, ?_⟩
    · unfold filterFields
      rw [hempty]
      simp only [Bool.false_eq_true, if_false, hfind]
    · intro g
      simp [List.mem_filter]

/-- Witness for C3: a request naming an unknown field fails carrying that
name; the valid request for the name field excludes only the unrequested
non-permanent field. -/
theorem c3_filter_fields_validation_witness :
    (filterFields ⟨[("name", .scalar), ("info", .scalar)], [], ["id"]⟩
      ["name", "bogus"] = .error (.invalidField "bogus")) ∧
    ∃ ign, filterFields ⟨[("name", .scalar), ("info", .scalar)], [], ["id"]⟩
        ["name"] = .ok ign ∧
      ∀ g, g ∈ ign ↔
        (g ∈ initialFields ⟨[("name", .scalar), ("info", .scalar)], [], ["id"]⟩ ∧
         g ∉ ["name"] ∧ g ∉ permanentFields) := by
  constructor
  · exact (c3_filter_fields_validation
      ⟨[("name", .scalar), ("info", .scalar)], [], ["id"]⟩ ["name", "bogus"]
      (by decide)).1 "bogus" (by decide) (by decide) (by decide)
  · exact (c3_filter_fields_validation
      ⟨[("name", .scalar), ("info", .scalar)], [], ["id"]⟩ ["name"]
      (by decide)).2 (by decide)

/-- Helper: lookup at a matching head entry. -/
theorem dataGet_cons_pos {α : Type} {p : String × α} {d : List (String × α)}
    {k : String} (h : p.1 = k) : dataGet (p :: d) k = some p.2 := by
  simp [dataGet, List.find?_cons_of_pos, h]

/-- Helper: lookup skips a non-matching head entry. -/
theorem dataGet_cons_neg {α : Type} {p : String × α} {d : List (String × α)}
    {k : String} (h : ¬ p.1 = k) : dataGet (p :: d) k = dataGet d k := by
  simp [dataGet, List.find?_cons_of_neg, h]

/-- Helper: dataSet distributes over cons. -/
theorem dataSet_cons {p : String × String} {d : List (String × String)}
    {k w : String} :
    dataSet (p :: d) k w =
      (if p.1 = k then (p.1, w) else p) :: dataSet d k w := by
  simp [dataSet]

/-- Helper: updating a present key stores the new value. -/
theorem dataGet_dataSet_self {d : List (String × String)} {k v w : String}
    (h : dataGet d k = some v) : dataGet (dataSet d k w) k = some w := by
  induction d with
  | nil => simp [dataGet] at h
  | cons p d ih =>
    rw [dataSet_cons]
    by_cases hp : p.1 = k
    · rw [if_pos hp]
      exact dataGet_cons_pos hp
    · rw [if_neg hp, dataGet_cons_neg hp]
      rw [dataGet_cons_neg hp] at h
      exact ih h

/-- Helper: updating one key leaves every other key unchanged. -/
theorem dataGet_dataSet_ne {d : List (String × String)} {k k2 w : String}
    (h : k2 ≠ k) : dataGet (dataSet d k w) k2 = dataGet d k2 := by
  induction d with
  | nil => rfl
  | cons p d ih =>
    rw [dataSet_cons]
    by_cases hp : p.1 = k
    · have hne2 : ¬ p.1 = k2 := fun hc => h (by rw [← hc, hp])
      have hne : ¬ ((p.1, w).1 = k2) := hne2
      rw [if_pos hp, dataGet_cons_neg hne, ih, dataGet_cons_neg hne2]
    · rw [if_neg hp]
      by_cases hp2 : p.1 = k2
      · rw [dataGet_cons_pos hp2, dataGet_cons_pos hp2]
      · rw [dataGet_cons_neg hp2, dataGet_cons_neg hp2, ih]

/-- Helper: _format_uri leaves keys outside its key list untouched. -/
theorem formatUri_get_not_mem {d : List (String × String)}
    {keys : List String} {base k : String} (h : k ∉ keys) :
    dataGet (formatUri d keys base) k = dataGet d k := by
  induction keys generalizing d with
  | nil => rfl
  | cons k0 rest ih =>
    have hk0 : k ≠ k0 := fun hc => h (hc ▸ List.mem_cons_self k0 rest)
    have hrest : k ∉ rest := fun hc => h (List.mem_cons_of_mem k0 hc)
    simp only [formatUri, List.foldl_cons]
    cases hg : dataGet d k0 with
    | none =>
      simp only [hg]
      exact (by simpa [formatUri] using ih (d := d) hrest)
    | some v0 =>
      simp only [hg]
      by_cases hv0 : v0 ≠ ""
      · simp only [if_pos hv0]
        rw [show (List.foldl _ (dataSet d k0 (base ++ "/" ++ lstripSlash v0)) rest : List (String × String)) = formatUri (dataSet d k0 (base ++ "/" ++ lstripSlash v0)) rest base from rfl]
        rw [ih hrest]
        exact dataGet_dataSet_ne hk0
      · simp only [if_neg hv0]
        exact (by simpa [formatUri] using ih (d := d) hrest)

/-- Helper: _format_uri rewrites a listed key holding a non-empty value to
the base-prefixed form. -/
theorem formatUri_get_mem {d : List (String × String)} {keys : List String}
    {base k v : String} (hnd : keys.Nodup) (hk : k ∈ keys)
    (hget : dataGet d k = some v) (hv : v ≠ "") :
    dataGet (formatUri d keys base) k =
      some (base ++ "/" ++ lstripSlash v) := by
  induction keys generalizing d with
  | nil => cases hk
  | cons k0 rest ih =>
    simp only [formatUri, List.foldl_cons]
    by_cases hkk : k = k0
    · subst hkk
      simp only [hget, if_pos hv]
      have hrest : k ∉ rest := (List.nodup_cons.mp hnd).1
      rw [show (List.foldl _ (dataSet d k (base ++ "/" ++ lstripSlash v)) rest : List (String × String)) = formatUri (dataSet d k (base ++ "/" ++ lstripSlash v)) rest base from rfl]
      rw [formatUri_get_not_mem hrest]
      exact dataGet_dataSet_self hget
    · have hkrest : k ∈ rest := by
        rcases List.mem_cons.mp hk with h | h
        · exact absurd h hkk
        · exact h
      have hndrest : rest.Nodup := (List.nodup_cons.mp hnd).2
      cases hg : dataGet d k0 with
      | none =>
        simp only [hg]
        exact (by simpa [formatUri] using ih hndrest hkrest hget)
      | some v0 =>
        simp only [hg]
        by_cases hv0 : v0 ≠ ""
        · simp only [if_pos hv0]
          have hget2 : dataGet (dataSet d k0 (base ++ "/" ++ lstripSlash v0)) k = some v := by
            rw [dataGet_dataSet_ne hkk]
            exact hget
          exact (by simpa [formatUri] using ih hndrest hkrest hget2)
        · simp only [if_neg hv0]
          exact (by simpa [formatUri] using ih hndrest hkrest hget)

/-- C4 counterexample: the claim requires a value that is already absolute to
be left alone, but _format_api_uri carries no absoluteness test — an already
absolute resource_uri value is prefixed again with the base URL. -/
theorem c4_counterexample :
    isAbsoluteUri "http://other.example/jobs/2/" = true ∧
    formatApiUri [("resource_uri", "http://other.example/jobs/2/")]
        "https://api.example.com" =
      [("resource_uri",
        "https://api.example.com/http://other.example/jobs/2/")] := by
  constructor
  · rfl
  · rfl

/-- C4 amended: in the dehydration post-pass, every key of the mapping whose
name ends in _uri, plus resource_uri / next / previous, that holds a
non-empty value has that value unconditionally prefixed with the base URL
(its leading slashes stripped first) — with no already-absolute exemption;
empty or missing values are left untouched. -/
theorem c4_uri_keys_prefixed (data : List (String × String))
    (baseUrl k v : String) (hnd : (data.map Prod.fst).Nodup)
    (hk : k ∈ apiUriKeys ∨ strEnds k "_uri" = true)
    (hget : dataGet data k = some v) (hv : v ≠ "") :
    dataGet (formatApiUri data baseUrl) k =
      some (baseUrl ++ "/" ++ lstripSlash v) := by
  have hpair : ∃ p, data.find? (fun q => q.1 = k) = some p ∧ p.2 = v := by
    cases hf : data.find? (fun q => q.1 = k) with
    | none => simp [dataGet, hf] at hget
    | some p =>
      refine ⟨p, rfl, ?_⟩
      simpa [dataGet, hf] using hget
  obtain ⟨p, hfind, hpv⟩ := hpair
  have hp1 : p.1 = k := by
    have := List.find?_some hfind
    simpa using this
  have hmemdata : k ∈ data.map Prod.fst :=
    hp1 ▸ List.mem_map_of_mem Prod.fst (List.mem_of_find?_eq_some hfind)
  have hnduri : (uriKeysFor data).Nodup := by
    rw [uriKeysFor, List.nodup_append]
    refine ⟨by decide, hnd.filter _, ?_⟩
    intro a ha hafil
    have := (List.mem_filter.mp hafil).2
    simp only [Bool.and_eq_true, Bool.not_eq_true'] at this
    exact absurd ha (by
      intro hmem
      have hc : apiUriKeys.contains a = true := List.elem_eq_true_of_mem hmem
      rw [hc] at this
      exact Bool.noConfusion this.2)
  have hkmem : k ∈ uriKeysFor data := by
    by_cases hka : k ∈ apiUriKeys
    · exact List.mem_append_left _ hka
    · rcases hk with h | h
      · exact absurd h hka
      · refine List.mem_append_right _ (List.mem_filter.mpr ⟨hmemdata, ?_⟩)
        simp only [Bool.and_eq_true, h, true_and, Bool.not_eq_true']
        exact (Bool.eq_false_iff.mpr (fun hc => hka (List.mem_of_elem_eq_true hc)))
  exact formatUri_get_mem hnduri hkmem hget hv

/-- Witness for the amended C4 at a concrete relative job_uri value. -/
theorem c4_uri_keys_prefixed_witness :
    dataGet (formatApiUri [("job_uri", "/jobs/2/")] "https://api.example.com")
      "job_uri" = some ("https://api.example.com" ++ "/" ++ lstripSlash "/jobs/2/") :=
  c4_uri_keys_prefixed [("job_uri", "/jobs/2/")] "https://api.example.com"
    "job_uri" "/jobs/2/" (by decide) (Or.inr (by decide)) (by decide)
    (by decide)

/-- Helper: lookup at a matching head pair. -/
theorem dataGet_pair_pos {α : Type} {k1 k : String} {v : α}
    {d : List (String × α)} (h : k1 = k) :
    dataGet ((k1, v) :: d) k = some v :=
  dataGet_cons_pos h

/-- Helper: lookup skips a non-matching head pair. -/
theorem dataGet_pair_neg {α : Type} {k1 k : String} {v : α}
    {d : List (String × α)} (h : ¬ k1 = k) :
    dataGet ((k1, v) :: d) k = dataGet d k :=
  dataGet_cons_neg h

/-- Helper: appending the _id ending changes the string. -/
theorem append_id_ne (a : String) : ¬ (a ++ "_id" = a) := by
  intro h
  have hlen := congrArg String.length h
  rw [String.length_append] at hlen
  have h3 : String.length "_id" = 3 := rfl
  rw [h3] at hlen
  omega

/-- Helper: appending the _id ending is injective. -/
theorem append_id_inj {a b : String} (h : a ++ "_id" = b ++ "_id") : a = b := by
  have hd := congrArg String.data h
  rw [String.data_append, String.data_append] at hd
  exact String.ext (List.append_cancel_right hd)

/-- Helper: full_dehydrate emits no entry under a key that is neither a field
name nor a field name with the _id ending appended. -/
theorem fullDehydrate_get_none (hooks : String → Option (DehydObj → DVal))
    (ignore : List String) (o : DehydObj) (flds : List (String × FKind))
    (f : String) (hnm : ¬ f ∈ flds.map Prod.fst)
    (hnid : ∀ g ∈ flds, ¬ g.1 ++ "_id" = f) :
    dataGet (fullDehydrate hooks ignore o flds) f = none := by
  induction flds with
  | nil => rfl
  | cons g rest ih =>
    have hg1 : ¬ g.1 = f := fun hc =>
      hnm (hc ▸ List.mem_map.mpr ⟨g, List.mem_cons_self g rest, rfl⟩)
    have hgid : ¬ g.1 ++ "_id" = f := hnid g (List.mem_cons_self g rest)
    have hnm2 : ¬ f ∈ rest.map Prod.fst := fun hc => by
      rcases List.mem_map.mp hc with ⟨p, hp, hpf⟩
      exact hnm (List.mem_map.mpr ⟨p, List.mem_cons_of_mem g hp, hpf⟩)
    have hnid2 : ∀ g2 ∈ rest, ¬ g2.1 ++ "_id" = f := fun g2 hg2 =>
      hnid g2 (List.mem_cons_of_mem g hg2)
    have htail := ih hnm2 hnid2
    show dataGet (fullDehydrate hooks ignore o (g :: rest)) f = none
    rw [fullDehydrate]
    by_cases h1 : g.1 ∈ ignore
    · rw [if_pos h1]
      by_cases h2 : g.2 = FKind.foreignKey
      · rw [if_pos h2]
        by_cases h3 : g.1 ++ "_id" ∈ ignore
        · rw [if_pos h3]
          exact htail
        · rw [if_neg h3]
          rw [dataGet_pair_neg hgid]
          exact htail
      · rw [if_neg h2]
        exact htail
    · rw [if_neg h1]
      rw [dataGet_pair_neg hg1]
      exact htail

/-- C7: a relationship (BaseForeignKey) field that the projection excludes
while its derived _id field is not excluded is dehydrated as the bare
foreign identifier under the <field>_id key by the substituted IntegerField
conversion, and the relationship representation itself is absent from the
output (hypotheses: field names are unique, the derived _id name collides
with no declared name in either direction, and no custom dehydrate hook is
declared under the derived name). -/
theorem c7_ignored_fk_id_substitution
    (hooks : String → Option (DehydObj → DVal)) (flds : List (String × FKind))
    (ignore : List String) (o : DehydObj) (f : String)
    (hmem : (f, FKind.foreignKey) ∈ flds)
    (hnd : (flds.map Prod.fst).Nodup)
    (hign : f ∈ ignore) (hid : ¬ f ++ "_id" ∈ ignore)
    (hidname : ¬ f ++ "_id" ∈ flds.map Prod.fst)
    (hnocol : ∀ g ∈ flds, ¬ g.1 ++ "_id" = f)
    (hhook : hooks (f ++ "_id") = none) :
    dataGet (fullDehydrate hooks ignore o flds) (f ++ "_id") =
      some (.intOpt (o.rawId f)) ∧
    dataGet (fullDehydrate hooks ignore o flds) f = none := by
  induction flds with
  | nil => cases hmem
  | cons g rest ih =>
    by_cases hg1 : g.1 = f
    · have hfnotrest : ¬ f ∈ rest.map Prod.fst := by
        have := List.nodup_cons.mp hnd
        exact fun hc => this.1 (hg1 ▸ hc)
      have hgeq : g = (f, FKind.foreignKey) := by
        rcases List.mem_cons.mp hmem with h | h
        · exact h.symm
        · exact absurd (List.mem_map.mpr ⟨_, h, rfl⟩) hfnotrest
      subst hgeq
      rw [fullDehydrate]
      rw [if_pos hign, if_pos rfl, if_neg hid]
      constructor
      · rw [dataGet_pair_pos rfl]
        simp [applyHook, hhook]
      · rw [dataGet_pair_neg (append_id_ne f)]
        exact fullDehydrate_get_none hooks ignore o rest f hfnotrest
          (fun g2 hg2 => hnocol g2 (List.mem_cons_of_mem _ hg2))
    · have hmem2 : (f, FKind.foreignKey) ∈ rest := by
        rcases List.mem_cons.mp hmem with h | h
        · exact absurd (congrArg Prod.fst h.symm) hg1
        · exact h
      have hnd2 : (rest.map Prod.fst).Nodup := (List.nodup_cons.mp hnd).2
      have hidname2 : ¬ f ++ "_id" ∈ rest.map Prod.fst := fun hc =>
        hidname (by
          rcases List.mem_map.mp hc with ⟨p, hp, hpf⟩
          exact List.mem_map.mpr ⟨p, List.mem_cons_of_mem g hp, hpf⟩)
      have hnocol2 : ∀ g2 ∈ rest, ¬ g2.1 ++ "_id" = f := fun g2 hg2 =>
        hnocol g2 (List.mem_cons_of_mem g hg2)
      have htail := ih hmem2 hnd2 hidname2 hnocol2
      have hg1id : ¬ g.1 = f ++ "_id" := fun hc =>
        hidname (hc ▸ List.mem_map.mpr ⟨g, List.mem_cons_self g rest, rfl⟩)
      have hgid_idf : ¬ g.1 ++ "_id" = f ++ "_id" := fun hc =>
        hg1 (append_id_inj hc)
      have hgid_f : ¬ g.1 ++ "_id" = f := hnocol g (List.mem_cons_self g rest)
      rw [fullDehydrate]
      by_cases h1 : g.1 ∈ ignore
      · rw [if_pos h1]
        by_cases h2 : g.2 = FKind.foreignKey
        · rw [if_pos h2]
          by_cases h3 : g.1 ++ "_id" ∈ ignore
          · rw [if_pos h3]
            exact htail
          · rw [if_neg h3]
            rw [dataGet_pair_neg hgid_idf, dataGet_pair_neg hgid_f]
            exact htail
        · rw [if_neg h2]
          exact htail
      · rw [if_neg h1]
        rw [dataGet_pair_neg hg1id, dataGet_pair_neg hg1]
        exact htail

/-- Witness for C7: an excluded organization foreign key whose derived
organization_id is not excluded dehydrates to the bare identifier under the
organization_id key, with no organization entry emitted. -/
theorem c7_ignored_fk_id_substitution_witness :
    dataGet (fullDehydrate (fun _ => none) ["organization"]
        ⟨fun _ => some 7, fun _ => [], fun _ => ""⟩
        [("organization", .foreignKey), ("name", .scalar)])
        ("organization" ++ "_id") = some (.intOpt (some 7)) ∧
    dataGet (fullDehydrate (fun _ => none) ["organization"]
        ⟨fun _ => some 7, fun _ => [], fun _ => ""⟩
        [("organization", .foreignKey), ("name", .scalar)])
        "organization" = none :=
  c7_ignored_fk_id_substitution (fun _ => none)
    [("organization", .foreignKey), ("name", .scalar)] ["organization"]
    ⟨fun _ => some 7, fun _ => [], fun _ => ""⟩ "organization"
    (by decide) (by decide) (by decide) (by decide) (by decide) (by decide)
    rfl

/-- Helper: the output of a pass is fully sanitized — every kept element has
an acceptable name and only acceptable attributes, recursively. -/
theorem stripPass_sanitized (okTags okAttrs : List String) (frag : List HNode) :
    sanitizedFrag okTags okAttrs (stripPass okTags okAttrs frag).1 = true := by
  induction frag using stripPass.induct okTags okAttrs with
  | case1 => simp [stripPass, sanitizedFrag]
  | case2 s rest ih =>
    simp [stripPass, sanitizedFrag, ih]
  | case3 n attrs cs rest hn ihr ihc =>
    simp only [stripPass]
    rw [if_pos hn]
    simp only [sanitizedFrag, Bool.and_eq_true]
    refine ⟨⟨⟨?_, ?_⟩, ?_⟩, ?_⟩
    · exact List.elem_eq_true_of_mem hn
    · rw [List.all_eq_true]
      intro a ha
      exact (List.mem_filter.mp ha).2
    · exact ihc
    · exact ihr
  | case4 n attrs cs rest hn ihr =>
    simp only [stripPass]
    rw [if_neg hn]
    exact ihr

/-- Helper: a pass over an already sanitized fragment removes nothing and
returns it unchanged. -/
theorem stripPass_of_sanitized {okTags okAttrs : List String}
    {frag : List HNode}
    (h : sanitizedFrag okTags okAttrs frag = true) :
    stripPass okTags okAttrs frag = (frag, false) := by
  induction frag using stripPass.induct okTags okAttrs with
  | case1 => simp [stripPass]
  | case2 s rest ih =>
    simp only [sanitizedFrag] at h
    simp [stripPass, ih h]
  | case3 n attrs cs rest hn ihr ihc =>
    simp only [sanitizedFrag, Bool.and_eq_true] at h
    obtain ⟨⟨⟨hcont, hattrs⟩, hcs⟩, hrest⟩ := h
    have hfilter : attrs.filter (fun a => okAttrs.contains a.1) = attrs :=
      List.filter_eq_self.mpr (fun a ha => List.all_eq_true.mp hattrs a ha)
    simp only [stripPass, ihr hrest, ihc hcs]
    rw [if_pos hn, hfilter]
    simp
  | case4 n attrs cs rest hn ihr =>
    simp only [sanitizedFrag, Bool.and_eq_true] at h
    exact absurd (List.mem_of_elem_eq_true h.1.1.1) hn

/-- Helper: one unit of fuel already suffices for the loop — after the first
pass any further pass is the identity, so the loop result is the first pass
output whatever the remaining fuel. -/
theorem cleanLoop_succ (okTags okAttrs : List String) (fuel : Nat)
    (frag : List HNode) :
    cleanLoop okTags okAttrs (fuel + 1) frag =
      (stripPass okTags okAttrs frag).1 := by
  cases fuel with
  | zero =>
    simp only [cleanLoop]
    split <;> rfl
  | succ f =>
    simp only [cleanLoop]
    split
    · rw [stripPass_of_sanitized (stripPass_sanitized okTags okAttrs frag)]
      simp
    · rfl

/-- C8: the sanitizer is idempotent for every fragment and every pair of
allow-lists — cleaning an already cleaned fragment returns it unchanged —
and the loop runs until a pass strips no further tag: a pass over the result
reports nothing removed. -/
theorem c8_clean_html_idempotent (okTags okAttrs : List String)
    (frag : List HNode) :
    cleanHtml okTags okAttrs (cleanHtml okTags okAttrs frag) =
      cleanHtml okTags okAttrs frag ∧
    (stripPass okTags okAttrs (cleanHtml okTags okAttrs frag)).2 = false := by
  have hrew : ∀ g : List HNode, cleanHtml okTags okAttrs g =
      (stripPass okTags okAttrs g).1 := fun g => cleanLoop_succ _ _ _ _
  have hfix := stripPass_of_sanitized (stripPass_sanitized okTags okAttrs frag)
  constructor
  · rw [hrew frag, hrew (stripPass okTags okAttrs frag).1, hfix]
  · rw [hrew frag, hfix]

/-- Helper: inserting into a chain preserves the chain, for any total
comparison. -/
theorem insertBy_chain (le : SObj → SObj → Bool)
    (htot : ∀ a b, le a b = true ∨ le b a = true) (x : SObj) (l : List SObj)
    (hl : isChain le l = true) : isChain le (insertBy le x l) = true := by
  induction l with
  | nil => simp [insertBy, isChain]
  | cons y ys ih =>
    by_cases hxy : le x y = true
    · rw [insertBy, if_pos hxy]
      show isChain le (x :: y :: ys) = true
      simp only [isChain, Bool.and_eq_true]
      exact ⟨hxy, hl⟩
    · rw [insertBy, if_neg hxy]
      have hyx : le y x = true := (htot x y).resolve_left hxy
      have hys : isChain le ys = true := by
        cases ys with
        | nil => rfl
        | cons z zs =>
          simp only [isChain, Bool.and_eq_true] at hl
          exact hl.2
      have hins := ih hys
      cases ys with
      | nil => simp [insertBy, isChain, hyx]
      | cons z zs =>
        have hyz : le y z = true := by
          simp only [isChain, Bool.and_eq_true] at hl
          exact hl.1
        rw [insertBy]
        by_cases hxz : le x z = true
        · rw [if_pos hxz]
          show isChain le (y :: x :: z :: zs) = true
          have hzzs : isChain le (z :: zs) = true := by
            simp only [isChain, Bool.and_eq_true] at hl
            exact hl.2
          simp only [isChain, Bool.and_eq_true]
          exact ⟨hyx, hxz, hzzs⟩
        · rw [if_neg hxz]
          have heq : insertBy le x (z :: zs) = z :: insertBy le x zs := by
            rw [insertBy, if_neg hxz]
          rw [heq] at hins
          show isChain le (y :: z :: insertBy le x zs) = true
          simp only [isChain, Bool.and_eq_true]
          exact ⟨hyz, hins⟩

/-- Helper: the order_by model always produces a chain for a total
comparison. -/
theorem orderByKeys_chain (keys : List String)
    (htot : ∀ a b, keyLe keys a b = true ∨ keyLe keys b a = true)
    (objs : List SObj) :
    isChain (keyLe keys) (orderByKeys keys objs) = true := by
  unfold orderByKeys
  induction objs with
  | nil => rfl
  | cons o os ih =>
    rw [List.foldr_cons]
    exact insertBy_chain _ htot o _ ih

/-- Helper: evaluation of the comparison induced by the single "-id" key. -/
theorem keyLe_id_eval (a b : SObj) :
    keyLe ["-id"] a b =
      (if a.attrs "id" = b.attrs "id" then true
       else decide (b.attrs "id" < a.attrs "id")) := rfl

/-- Helper: the "-id" comparison is total. -/
theorem keyLe_id_total (a b : SObj) :
    keyLe ["-id"] a b = true ∨ keyLe ["-id"] b a = true := by
  rw [keyLe_id_eval, keyLe_id_eval]
  by_cases heq : a.attrs "id" = b.attrs "id"
  · left
    rw [if_pos heq]
  · rcases lt_or_gt_of_ne heq with h | h
    · right
      rw [if_neg (fun hc => heq hc.symm)]
      simpa using h
    · left
      rw [if_neg heq]
      simpa using h

/-- Helper: a chain for the "-id" comparison is descending by identifier. -/
theorem isChain_descById (l : List SObj)
    (h : isChain (keyLe ["-id"]) l = true) : descById l = true := by
  induction l with
  | nil => rfl
  | cons a l ih =>
    cases l with
    | nil => rfl
    | cons b m =>
      simp only [isChain, Bool.and_eq_true] at h
      have hle : b.attrs "id" ≤ a.attrs "id" := by
        have h1 := h.1
        rw [keyLe_id_eval] at h1
        by_cases heq : a.attrs "id" = b.attrs "id"
        · exact le_of_eq heq.symm
        · rw [if_neg heq] at h1
          exact le_of_lt (of_decide_eq_true h1)
      show descById (a :: b :: m) = true
      simp only [descById, Bool.and_eq_true]
      exact ⟨decide_eq_true hle, ih h.2⟩

/-- C1 counterexample: when the cleaned options mapping carries no order_by
key at all, apply_sorting returns the object list unchanged — here an
ascending-by-id list stays ascending, so the result is not ordered by the
descending-by-identifier key the claim requires. -/
theorem c1_counterexample :
    applySorting ⟨[], [], []⟩ (fun _ _ => 0) none
        [⟨fun k => if k = "id" then 1 else 0⟩,
         ⟨fun k => if k = "id" then 2 else 0⟩] =
      .ok [⟨fun k => if k = "id" then 1 else 0⟩,
           ⟨fun k => if k = "id" then 2 else 0⟩] ∧
    descById [⟨fun k => if k = "id" then 1 else 0⟩,
              ⟨fun k => if k = "id" then 2 else 0⟩] = false :=
  ⟨rfl, rfl⟩

/-- C1 amended: the "-id" default fires only when the options mapping
contains the order_by key with an empty (falsy) value — then the results are
sorted by the single descending-by-identifier key, which orders them
descending by id (deterministically); when the order_by key is absent
altogether, apply_sorting returns the object list untouched, applying no
ordering at all. -/
theorem c1_default_ordering (r : SortRes) (evalExpr : String → SObj → Int)
    (objs : List SObj) :
    applySorting r evalExpr (some none) objs =
      .ok (orderByKeys ["-id"] objs) ∧
    applySorting r evalExpr (some (some [])) objs =
      .ok (orderByKeys ["-id"] objs) ∧
    descById (orderByKeys ["-id"] objs) = true ∧
    applySorting r evalExpr none objs = .ok objs := by
  refine ⟨rfl, rfl, ?_, rfl⟩
  exact isChain_descById _ (orderByKeys_chain ["-id"] keyLe_id_total objs)

/-- C5: for a parsed ISO date-time with offset, the field resolves the
offset against the enumerated zones by exact offset match at that instant —
when some zone matches, the result carries a matching zone name and the
UTC-normalized instant (local minus offset); when no zone matches, the
malformed-timezone error is raised. -/
theorem c5_iso_datetime_resolution (zones : List NamedZone) (value : String)
    (localSecs offMin : Int)
    (hparse : parseIso value = some (localSecs, offMin)) :
    ((∃ z ∈ zones, z.offsetAt localSecs = offMin) →
      ∃ z ∈ zones, z.offsetAt localSecs = offMin ∧
        isoClean zones true value =
          .ok (some ⟨z.name, localSecs - offMin * 60⟩)) ∧
    ((∀ z ∈ zones, ¬ z.offsetAt localSecs = offMin) →
      isoClean zones true value = .error .malformedTimezone) := by
  have hne : ¬ value = "" := by
    intro hc
    rw [hc] at hparse
    exact Option.noConfusion hparse
  have hred : isoClean zones true value =
      (match getTimezoneString zones localSecs offMin with
       | none => Except.error ApiErr.malformedTimezone
       | some tzName => Except.ok (some ⟨tzName, localSecs - offMin * 60⟩)) := by
    unfold isoClean
    rw [if_neg hne, hparse]
  constructor
  · intro hex
    have hsome : (zones.find? (fun z => z.offsetAt localSecs = offMin)).isSome := by
      rw [List.find?_isSome]
      rcases hex with ⟨z, hz, hoff⟩
      exact ⟨z, hz, by simpa using hoff⟩
    obtain ⟨z0, hz0⟩ := Option.isSome_iff_exists.mp hsome
    refine ⟨z0, List.mem_of_find?_eq_some hz0, ?_, ?_⟩
    · have := List.find?_some hz0
      simpa using this
    · rw [hred]
      unfold getTimezoneString
      rw [hz0]
      rfl
  · intro hall
    have hnone : zones.find? (fun z => z.offsetAt localSecs = offMin) = none := by
      apply List.find?_eq_none.mpr
      intro z hz
      simpa using hall z hz
    rw [hred]
    unfold getTimezoneString
    rw [hnone]
    rfl

/-- Witness for C5: the ISO timestamp of the spec example resolves to the
US/Central entry (offset exactly -5:00 at that instant) with the UTC value
2023-06-01T15:00:00, and the -05:17 offset matches no enumerated zone and
fails with the malformed-timezone error. -/
theorem c5_iso_datetime_resolution_witness :
    (∃ z ∈ exampleZones,
      z.offsetAt (secondsOfCivil 2023 6 1 10 0 0) = -300 ∧
      isoClean exampleZones true "2023-06-01T10:00:00-05:00" =
        .ok (some ⟨z.name, secondsOfCivil 2023 6 1 10 0 0 - (-300) * 60⟩)) ∧
    isoClean exampleZones true "2023-06-01T10:17:00-05:17" =
      .error .malformedTimezone := by
  constructor
  · exact (c5_iso_datetime_resolution exampleZones "2023-06-01T10:00:00-05:00"
      (secondsOfCivil 2023 6 1 10 0 0) (-300) (by decide)).1
      ⟨zoneCentral, List.Mem.tail _ (List.Mem.head _), rfl⟩
  · refine (c5_iso_datetime_resolution exampleZones "2023-06-01T10:17:00-05:17"
      (secondsOfCivil 2023 6 1 10 17 0) (-317) (by decide)).2 ?_
    intro z hz
    simp only [exampleZones, List.mem_cons, List.not_mem_nil, or_false] at hz
    rcases hz with rfl | rfl | rfl | rfl <;> decide

end TastypieExt
